import Mathlib

/-!
Shallow embedding of the lasrs LAS-well-log parser (files src/lib.rs and
src/util.rs) and verification of its specification claims.

Modelling conventions:
* Rust string slices are modelled as lists of characters (`Str`).
* Rust `char::is_whitespace` (and the regex class \s) and the regex classes
  \w and \d are modelled on their ASCII fragment; every concrete input in
  this development is ASCII, where the two notions coincide.
* The regular expressions of util.rs are modelled by bespoke scanners that
  implement the leftmost-first, greedy match semantics of the Rust regex
  crate for exactly those patterns.
* Rust `f64` values are modelled exactly: a finite decimal literal becomes
  the rational m / 10^k in canonical mantissa-exponent form (trailing
  factors of ten stripped from m, so equal decimal values have equal
  representations); infinities and NaN are separate constructors.  No
  claim depends on binary rounding, only on which tokens parse and on the
  decimal value that was written.
* Rust panics (`expect`, out-of-bounds indexing, `chunks(0)`) are modelled
  as explicit error constructors or `Option.none`.
-/

namespace Lasrs

abbrev Str := List Char

def str (s : String) : Str := s.data

/-- ASCII fragment of Rust `char::is_whitespace` / regex \s. -/
def isWS (c : Char) : Bool :=
  c == ' ' || c == '\t' || c == '\n' || c == '\r' ||
    c == Char.ofNat 11 || c == Char.ofNat 12

/-- ASCII fragment of the regex word class \w. -/
def isWordChar (c : Char) : Bool := c.isAlpha || c.isDigit || c == '_'

/-- Rust `str::trim` (ASCII fragment). -/
def trim (s : Str) : Str :=
  ((s.dropWhile (fun c => isWS c)).reverse.dropWhile (fun c => isWS c)).reverse

/-- Maximal prefix of characters satisfying `p`, together with the rest. -/
def takeRun (p : Char → Bool) : Str → Str × Str
  | [] => ([], [])
  | c :: rest =>
    if p c then
      let r := takeRun p rest
      (c :: r.1, r.2)
    else ([], c :: rest)

/-- Rust `str::split(sep)` for a one-character pattern (always ≥ 1 piece). -/
def splitChar (sep : Char) : Str → List Str
  | [] => [[]]
  | c :: rest =>
    if c == sep then [] :: splitChar sep rest
    else
      match splitChar sep rest with
      | [] => [[c]]
      | p :: ps => (c :: p) :: ps

/-- Drop one trailing carriage return (used by `linesOf`). -/
def stripCR (l : Str) : Str :=
  match l.getLast? with
  | some c => if c == '\r' then l.dropLast else l
  | none => l

/-- Helper for `linesOf`: the final piece keeps a bare trailing CR and is
dropped when empty (i.e. when the text ended with a newline). -/
def linesAux : List Str → List Str
  | [] => []
  | [l] => if l.isEmpty then [] else [l]
  | l :: ls => stripCR l :: linesAux ls

/-- Rust `str::lines`. -/
def linesOf (s : Str) : List Str := linesAux (splitChar '\n' s)

/-- util.rs `remove_comment`: trimmed lines that are neither blank nor
comments (trimmed form starting with '#'). -/
def remove_comment (raw : Str) : List Str :=
  (linesOf raw).filterMap fun x =>
    let t := trim x
    if t.head? == some '#' || t.length < 1 then none else some t

/-- Rust `str::splitn(2, pat).nth(1)`: the text after the first occurrence
of `pat`, or none when `pat` does not occur. -/
def splitAfterFirst (pat : Str) : Str → Option Str
  | [] => none
  | c :: rest =>
    if pat.isPrefixOf (c :: rest) then some (rest.drop (pat.length - 1))
    else splitAfterFirst pat rest

/-- Rust `str::splitn(2, pat).nth(0)` / `split(pat).nth(0)`: the text
before the first occurrence of `pat` (the whole string when absent). -/
def beforeFirst (pat : Str) : Str → Str
  | [] => []
  | c :: rest =>
    if pat.isPrefixOf (c :: rest) then []
    else c :: beforeFirst pat rest

/-- One splitting step of the regex `\s+|\s*:` under leftmost-first
semantics: at a whitespace character the first alternative consumes the
maximal whitespace run, at a colon the second alternative consumes just
the colon.  Returns the piece before the first separator and, when a
separator exists, the rest after it. -/
def smBreak : Str → Str × Option Str
  | [] => ([], none)
  | c :: rest =>
    if isWS c then ([], some (rest.dropWhile (fun d => isWS d)))
    else if c == ':' then ([], some rest)
    else
      let r := smBreak rest
      (c :: r.1, r.2)

/-- util.rs `SPACEMATCH.splitn(x, 3).nth(1).unwrap_or("")`: the token at
position 1 of the whitespace-or-colon split. -/
def smToken (x : Str) : Str :=
  match smBreak x with
  | (_, none) => []
  | (_, some r) => (smBreak r).1

/-- ASCII lowercasing, the fragment of Rust `str::to_lowercase` used here. -/
def toLowerC (c : Char) : Char :=
  if 'A' ≤ c ∧ c ≤ 'Z' then Char.ofNat (c.toNat + 32) else c

def toLowerStr (s : Str) : Str := s.map toLowerC

/-- Model of an `f64` value: `fin m k` is the exact rational m / 10^k in
canonical form (k = 0, or m nonzero and not divisible by ten), so that
structural equality coincides with value equality for decimals. -/
inductive FVal where
  | fin (m : ℤ) (k : ℕ)
  | inf (neg : Bool)
  | nan
deriving DecidableEq

def pow10 : ℕ → ℤ
  | 0 => 1
  | n + 1 => 10 * pow10 n

/-- Strip factors of ten from the mantissa while the exponent allows. -/
def stripTens : ℤ → ℕ → ℤ × ℕ
  | m, 0 => (m, 0)
  | m, k + 1 => if m % 10 == 0 then stripTens (m / 10) k else (m, k + 1)

/-- The canonical-form finite value m / 10^k. -/
def finVal (m : ℤ) (k : ℕ) : FVal :=
  if m == 0 then .fin 0 0
  else
    let c := stripTens m k
    .fin c.1 c.2

def digitsToNat (s : Str) : ℕ := s.foldl (fun a c => 10 * a + (c.toNat - 48)) 0

/-- Exact value of a parsed decimal `[-] ip . fp [e [-] ed]`. -/
def decValue (neg : Bool) (ip fp : Str) (eneg : Bool) (ed : Str) : FVal :=
  let m0 : ℤ := (digitsToNat ip : ℤ) * pow10 fp.length + (digitsToNat fp : ℤ)
  let m1 : ℤ := if neg then -m0 else m0
  let e := digitsToNat ed
  if eneg then finVal m1 (fp.length + e) else finVal (m1 * pow10 e) fp.length

/-- Exponent part (and end of string) of the Rust `f64::from_str` grammar. -/
def parseTail (neg : Bool) (ip fp rest : Str) : Option FVal :=
  match rest with
  | [] => some (decValue neg ip fp false [])
  | c :: r =>
    if toLowerC c == 'e' then
      let sd : Bool × Str :=
        match r with
        | '+' :: rr => (false, rr)
        | '-' :: rr => (true, rr)
        | rr => (false, rr)
      let ed := takeRun Char.isDigit sd.2
      if ed.1.isEmpty then none
      else if ed.2.isEmpty then some (decValue neg ip fp sd.1 ed.1)
      else none
    else none

/-- Mantissa part of the Rust `f64::from_str` grammar: at least one digit,
optionally around a single dot. -/
def parseDecimal (neg : Bool) (s : Str) : Option FVal :=
  let ip := takeRun Char.isDigit s
  match ip.2 with
  | '.' :: r =>
    let fp := takeRun Char.isDigit r
    if ip.1.isEmpty && fp.1.isEmpty then none else parseTail neg ip.1 fp.1 fp.2
  | _ => if ip.1.isEmpty then none else parseTail neg ip.1 [] ip.2

/-- Rust `str::parse::<f64>`: optional sign, then case-insensitive
inf/infinity/nan or a decimal number; anything else fails. -/
def parseF64 (s : Str) : Option FVal :=
  match s with
  | [] => none
  | _ =>
    let sr : Bool × Str :=
      match s with
      | '+' :: r => (false, r)
      | '-' :: r => (true, r)
      | r => (false, r)
    let low := toLowerStr sr.2
    if low == str "inf" || low == str "infinity" then some (.inf sr.1)
    else if low == str "nan" then some FVal.nan
    else parseDecimal sr.1 sr.2

/-- Result of util.rs `metadata`: `noSection` is Rust's `None` (no '~' in
the document), `panicIdx` models the out-of-bounds panic of `m[0]`/`m[1]`
when fewer than two non-comment lines follow the section header. -/
inductive MetaOut where
  | noSection
  | panicIdx
  | ok (version : Option FVal) (wrap : Bool)
deriving DecidableEq

/-- util.rs `metadata`: the slice between the first and second '~', its
non-comment lines with the header dropped, the first two lines' tokens. -/
def metadata (raw : Str) : MetaOut :=
  match (splitChar '~' raw).get? 1 with
  | none => .noSection
  | some sec =>
    match ((remove_comment sec).drop 1).take 2 with
    | [a, b] => .ok (parseF64 (smToken a)) (toLowerStr (smToken b) == str "yes")
    | _ => .panicIdx

/-- Result of `Las::version`: `invalidVersion` models the
`expect("Invalid version")` panic, `panicIdx` the indexing panic inside
`metadata`. -/
inductive VersionOut where
  | invalidVersion
  | panicIdx
  | val (v : FVal)
deriving DecidableEq

/-- lib.rs `Las::version`. -/
def version (raw : Str) : VersionOut :=
  match metadata raw with
  | .noSection => .invalidVersion
  | .panicIdx => .panicIdx
  | .ok none _ => .invalidVersion
  | .ok (some v) _ => .val v

/-- Result of `Las::wrap`: `panicIdx` models the indexing panic inside
`metadata`; otherwise a boolean is returned. -/
inductive WrapOut where
  | panicIdx
  | val (b : Bool)
deriving DecidableEq

/-- lib.rs `Las::wrap` (`unwrap_or_default` turns a missing section into
`false`). -/
def wrap (raw : Str) : WrapOut :=
  match metadata raw with
  | .noSection => .val false
  | .panicIdx => .panicIdx
  | .ok _ w => .val w

/-! Spec-side vocabulary for the metadata claims. -/

/-- The version section body: the text between the first and second '~'. -/
def versionSectionBody (raw : Str) : Option Str := (splitChar '~' raw).get? 1

/-- Non-comment lines of the version section after its header line. -/
def versionSectionLines (raw : Str) : List Str :=
  match versionSectionBody raw with
  | none => []
  | some sec => (remove_comment sec).drop 1

/-- The version line: first non-comment line after the section header. -/
def versionLine (raw : Str) : Option Str := (versionSectionLines raw).get? 0

/-- The wrap line: second non-comment line after the section header. -/
def wrapLine (raw : Str) : Option Str := (versionSectionLines raw).get? 1

/-- Parse of the version line's value token. -/
def versionTokenParse (raw : Str) : Option FVal :=
  (versionLine raw).bind (fun l => parseF64 (smToken l))

/-- Whether the wrap line's value token case-insensitively equals yes. -/
def wrapTokenIsYes (raw : Str) : Bool :=
  match wrapLine raw with
  | some l => toLowerStr (smToken l) == str "yes"
  | none => false

/-- Claim C1 as stated: version() fails with "invalid version" iff the
version section is missing or the version token does not parse; otherwise
it returns the parsed number. -/
def ClaimC1 : Prop := ∀ raw : Str,
  (version raw = .invalidVersion ↔
      (versionSectionBody raw = none ∨ versionTokenParse raw = none))
  ∧ ∀ q, versionTokenParse raw = some q → version raw = .val q

/-- Claim C2 as stated: wrap() always returns the boolean value of the
yes-comparison on the wrap token and never raises. -/
def ClaimC2 : Prop := ∀ raw : Str, wrap raw = .val (wrapTokenIsYes raw)

/-- Claim C1: refuted.  In the document below the version section exists
and its version token "2.0" parses, yet `version` hits the out-of-bounds
panic of `m[1]` (only one non-comment line follows the header) instead of
returning 2.0. -/
theorem C1_counterexample : ¬ ClaimC1 := by
  intro h
  have h2 := (h (str "~X\nVERS 2.0")).2 (FVal.fin 2 0) (by decide)
  exact absurd h2 (by decide)

/-- Claim C2: refuted.  On a document whose first '~' section has only one
non-comment line after the header, `wrap` panics (index out of bounds in
`metadata`) instead of returning false. -/
theorem C2_counterexample : ¬ ClaimC2 := by
  intro h
  exact absurd (h (str "~Version\nVERS. 2.0:")) (by decide)

/-! Computation lemmas for `metadata` and the spec-side vocabulary. -/

theorem metadata_eq_noSection (raw : Str)
    (h : (splitChar '~' raw).get? 1 = none) : metadata raw = .noSection := by
  unfold metadata
  rw [h]

theorem metadata_eq_some (raw sec : Str)
    (h : (splitChar '~' raw).get? 1 = some sec) :
    metadata raw
      = match ((remove_comment sec).drop 1).take 2 with
        | [a, b] => .ok (parseF64 (smToken a)) (toLowerStr (smToken b) == str "yes")
        | _ => .panicIdx := by
  unfold metadata
  rw [h]

theorem metadata_eq_panic_nil (raw sec : Str)
    (h : (splitChar '~' raw).get? 1 = some sec)
    (hl : (remove_comment sec).drop 1 = []) : metadata raw = .panicIdx := by
  rw [metadata_eq_some raw sec h, hl]
  rfl

theorem metadata_eq_panic_single (raw sec a : Str)
    (h : (splitChar '~' raw).get? 1 = some sec)
    (hl : (remove_comment sec).drop 1 = [a]) : metadata raw = .panicIdx := by
  rw [metadata_eq_some raw sec h, hl]
  rfl

theorem metadata_eq_ok (raw sec a b : Str) (t : List Str)
    (h : (splitChar '~' raw).get? 1 = some sec)
    (hl : (remove_comment sec).drop 1 = a :: b :: t) :
    metadata raw
      = .ok (parseF64 (smToken a)) (toLowerStr (smToken b) == str "yes") := by
  rw [metadata_eq_some raw sec h, hl]
  rfl

theorem wrapLine_eq_none_of_body_none (raw : Str)
    (h : (splitChar '~' raw).get? 1 = none) : wrapLine raw = none := by
  simp only [wrapLine, versionSectionLines, versionSectionBody, h]
  rfl

theorem wrapLine_eq_none_nil (raw sec : Str)
    (h : (splitChar '~' raw).get? 1 = some sec)
    (hl : (remove_comment sec).drop 1 = []) : wrapLine raw = none := by
  simp only [wrapLine, versionSectionLines, versionSectionBody, h, hl]
  rfl

theorem wrapLine_eq_none_single (raw sec a : Str)
    (h : (splitChar '~' raw).get? 1 = some sec)
    (hl : (remove_comment sec).drop 1 = [a]) : wrapLine raw = none := by
  simp only [wrapLine, versionSectionLines, versionSectionBody, h, hl]
  rfl

theorem wrapLine_eq_some (raw sec a b : Str) (t : List Str)
    (h : (splitChar '~' raw).get? 1 = some sec)
    (hl : (remove_comment sec).drop 1 = a :: b :: t) : wrapLine raw = some b := by
  simp only [wrapLine, versionSectionLines, versionSectionBody, h, hl]
  rfl

theorem versionTokenParse_eq (raw sec a b : Str) (t : List Str)
    (h : (splitChar '~' raw).get? 1 = some sec)
    (hl : (remove_comment sec).drop 1 = a :: b :: t) :
    versionTokenParse raw = parseF64 (smToken a) := by
  simp only [versionTokenParse, versionLine, versionSectionLines,
    versionSectionBody, h, hl]
  rfl

/-- Claim C1 (amended): when the document has no '~', version() fails with
"invalid version"; when the first '~' section has fewer than two
non-comment lines after its header, version() fails with an
index-out-of-bounds panic instead; otherwise it fails with "invalid
version" exactly when the version line's token does not parse, and returns
the parsed number when it does. -/
theorem C1_theorem (raw : Str) :
    (versionSectionBody raw = none → version raw = .invalidVersion)
    ∧ (versionSectionBody raw ≠ none → wrapLine raw = none →
        version raw = .panicIdx)
    ∧ (wrapLine raw ≠ none →
        ((version raw = .invalidVersion ↔ versionTokenParse raw = none)
         ∧ ∀ q, versionTokenParse raw = some q → version raw = .val q)) := by
  cases h : (splitChar '~' raw).get? 1 with
  | none =>
    refine ⟨fun _ => ?_, fun h1 _ => absurd h h1, fun h3 => ?_⟩
    · unfold version
      rw [metadata_eq_noSection raw h]
    · exact absurd (wrapLine_eq_none_of_body_none raw h) h3
  | some sec =>
    rcases hl : (remove_comment sec).drop 1 with _ | ⟨a, _ | ⟨b, t⟩⟩
    · refine ⟨fun hb => ?_, fun _ _ => ?_, fun h3 => ?_⟩
      · rw [versionSectionBody, h] at hb
        exact Option.noConfusion hb
      · unfold version
        rw [metadata_eq_panic_nil raw sec h hl]
      · exact absurd (wrapLine_eq_none_nil raw sec h hl) h3
    · refine ⟨fun hb => ?_, fun _ _ => ?_, fun h3 => ?_⟩
      · rw [versionSectionBody, h] at hb
        exact Option.noConfusion hb
      · unfold version
        rw [metadata_eq_panic_single raw sec a h hl]
      · exact absurd (wrapLine_eq_none_single raw sec a h hl) h3
    · refine ⟨fun hb => ?_, fun _ h2 => ?_, fun _ => ?_⟩
      · rw [versionSectionBody, h] at hb
        exact Option.noConfusion hb
      · rw [wrapLine_eq_some raw sec a b t h hl] at h2
        exact Option.noConfusion h2
      · have hv : version raw =
            match parseF64 (smToken a) with
            | none => VersionOut.invalidVersion
            | some v => VersionOut.val v := by
          unfold version
          rw [metadata_eq_ok raw sec a b t h hl]
          cases parseF64 (smToken a) <;> rfl
        rw [versionTokenParse_eq raw sec a b t h hl]
        cases hp : parseF64 (smToken a) with
        | none => rw [hp] at hv; simp [hv]
        | some v => rw [hp] at hv; simp [hv]

/-- Claim C1 amended, witnessed on a well-formed document. -/
theorem C1_witness :
    wrapLine (str "~V\nVERS. 2.0:\nWRAP. NO:") ≠ none ∧
    version (str "~V\nVERS. 2.0:\nWRAP. NO:") = .val (.fin 2 0) :=
  ⟨by decide, ((C1_theorem _).2.2 (by decide)).2 _ (by decide)⟩

/-- Claim C2 (amended): wrap() returns false when the document has no '~';
it panics (index out of bounds) when the first '~' section has fewer than
two non-comment lines after its header; otherwise it returns exactly the
case-insensitive yes-comparison of the wrap line's token. -/
theorem C2_theorem (raw : Str) :
    (versionSectionBody raw = none → wrap raw = .val false)
    ∧ (versionSectionBody raw ≠ none → wrapLine raw = none →
        wrap raw = .panicIdx)
    ∧ (wrapLine raw ≠ none → wrap raw = .val (wrapTokenIsYes raw)) := by
  cases h : (splitChar '~' raw).get? 1 with
  | none =>
    refine ⟨fun _ => ?_, fun h1 _ => absurd h h1, fun h3 => ?_⟩
    · unfold wrap
      rw [metadata_eq_noSection raw h]
    · exact absurd (wrapLine_eq_none_of_body_none raw h) h3
  | some sec =>
    rcases hl : (remove_comment sec).drop 1 with _ | ⟨a, _ | ⟨b, t⟩⟩
    · refine ⟨fun hb => ?_, fun _ _ => ?_, fun h3 => ?_⟩
      · rw [versionSectionBody, h] at hb
        exact Option.noConfusion hb
      · unfold wrap
        rw [metadata_eq_panic_nil raw sec h hl]
      · exact absurd (wrapLine_eq_none_nil raw sec h hl) h3
    · refine ⟨fun hb => ?_, fun _ _ => ?_, fun h3 => ?_⟩
      · rw [versionSectionBody, h] at hb
        exact Option.noConfusion hb
      · unfold wrap
        rw [metadata_eq_panic_single raw sec a h hl]
      · exact absurd (wrapLine_eq_none_single raw sec a h hl) h3
    · refine ⟨fun hb => ?_, fun _ h2 => ?_, fun _ => ?_⟩
      · rw [versionSectionBody, h] at hb
        exact Option.noConfusion hb
      · rw [wrapLine_eq_some raw sec a b t h hl] at h2
        exact Option.noConfusion h2
      · unfold wrap
        rw [metadata_eq_ok raw sec a b t h hl, wrapTokenIsYes,
          wrapLine_eq_some raw sec a b t h hl]

/-- Claim C2 amended, witnessed on a document with a mixed-case Yes. -/
theorem C2_witness :
    wrapLine (str "~V\nVERS. 2.0:\nWRAP. Yes:") ≠ none ∧
    wrapTokenIsYes (str "~V\nVERS. 2.0:\nWRAP. Yes:") = true ∧
    wrap (str "~V\nVERS. 2.0:\nWRAP. Yes:")
      = .val (wrapTokenIsYes (str "~V\nVERS. 2.0:\nWRAP. Yes:")) :=
  ⟨by decide, by decide, (C2_theorem _).2.2 (by decide)⟩

/-! Property extraction (util.rs `property` and its regexes). -/

/-- Match of the regex `\s*[.]\s+` anchored at the head of `s` (greedy,
with the backtracking of `\s*` collapsing since a shorter whitespace run
cannot be followed by a dot): returns the rest after the match. -/
def disMatchAt (s : Str) : Option Str :=
  let r1 := takeRun (fun c => isWS c) s
  match r1.2 with
  | '.' :: t2 =>
    let r2 := takeRun (fun c => isWS c) t2
    if r2.1.isEmpty then none else some r2.2
  | _ => none

def noneSentinel : Str := str "   none   "

/-- util.rs `DOT_IN_SPACES.replace(line, "   none   ")`: replace the
leftmost match of `\s*[.]\s+` by the sentinel. -/
def normalizeLine : Str → Str
  | [] => []
  | c :: rest =>
    match disMatchAt (c :: rest) with
    | some t => noneSentinel ++ t
    | none => c :: normalizeLine rest

/-- One splitting step of the regex `[.]|\s+`: a dot is a one-character
separator, a whitespace character starts a maximal-run separator. -/
def dosBreak : Str → Str × Option Str
  | [] => ([], none)
  | c :: rest =>
    if c == '.' then ([], some rest)
    else if isWS c then ([], some (rest.dropWhile (fun d => isWS d)))
    else
      let r := dosBreak rest
      (c :: r.1, r.2)

/-- util.rs `DOT_OR_SPACES.splitn(root, 2)` as a list of pieces. -/
def dosSplitn2 (s : Str) : List Str :=
  match dosBreak s with
  | (a, none) => [a]
  | (a, some r) => [a, r]

/-- util.rs title extraction: `splitn(2).nth(0).unwrap_or("UNKNOWN").trim()`. -/
def propTitle (root : Str) : Str :=
  trim (((dosSplitn2 root).head?).getD (str "UNKNOWN"))

/-- Anchored match of `^\w+\s*[.]*s*` (note: the trailing `s*` of the
source regex is a literal letter s repeated, not a whitespace class);
returns the rest after the match, or none when the first character is not
a word character. -/
def ladMatch (s : Str) : Option Str :=
  let w := takeRun isWordChar s
  if w.1.isEmpty then none
  else
    let r1 := takeRun (fun c => isWS c) w.2
    let d := takeRun (fun c => c == '.') r1.2
    let sRun := takeRun (fun c => c == 's') d.2
    some sRun.2

/-- util.rs unit extraction: text after the leading mnemonic-and-dot
pattern, first whitespace-separated piece, with the sentinel mapped to
the empty unit. -/
def propUnit (root : Str) : Str :=
  let y := (ladMatch root).getD []
  let x := y.takeWhile (fun c => !isWS c)
  if trim x == str "none" then [] else x

/-- `root.split(':').nth(0).unwrap_or("")`: text before the first colon. -/
def colonHead (root : Str) : Str := ((splitChar ':' root).head?).getD []

/-- `root.split(':').nth(1).unwrap_or("")`: text between the first and
second colons (to the end when there is no second colon). -/
def colonSecond (root : Str) : Str := ((splitChar ':' root).get? 1).getD []

/-- util.rs `DIGITS_AND_SPACES.replace_all(description, "")`: remove every
run of digits together with the whitespace run following it.  The flag
records whether the previous character was removed as part of a digit run
(so that following whitespace is absorbed). -/
def stripDigitRunsAux : Bool → Str → Str
  | _, [] => []
  | absorb, c :: rest =>
    if c.isDigit then stripDigitRunsAux true rest
    else if absorb && isWS c then stripDigitRunsAux true rest
    else c :: stripDigitRunsAux false rest

def stripDigitRuns (s : Str) : Str := stripDigitRunsAux false s

/-- util.rs description extraction. -/
def propDescription (root : Str) : Str := stripDigitRuns (trim (colonSecond root))

/-- Match of `\s{2,}\w*\s{2,}` anchored at the head of `s`, with the
regex crate's leftmost-first greedy semantics: prefer the maximal
whitespace run, then a maximal word run followed by a second whitespace
run of length at least two; if that fails, backtracking splits a single
whitespace run of length at least four.  Returns the rest after the
match. -/
def lisMatchAt (s : Str) : Option Str :=
  let r1 := takeRun (fun c => isWS c) s
  if 2 ≤ r1.1.length then
    let w := takeRun isWordChar r1.2
    let r2 := takeRun (fun c => isWS c) w.2
    if !w.1.isEmpty && 2 ≤ r2.1.length then some r2.2
    else if 4 ≤ r1.1.length then some r1.2
    else none
  else none

/-- Fuel-driven splitting on `\s{2,}\w*\s{2,}`; the fuel only bounds the
recursion (every step consumes at least one character), so `lisSplit`
below runs it with the input length. -/
def lisSplitF : ℕ → Str → List Str
  | _, [] => [[]]
  | 0, s => [s]
  | fuel + 1, c :: rest =>
    match lisMatchAt (c :: rest) with
    | some t => [] :: lisSplitF fuel t
    | none =>
      match lisSplitF fuel rest with
      | [] => [[c]]
      | p :: ps => (c :: p) :: ps

/-- util.rs `LETTERS_IN_SPACES.split(...)`. -/
def lisSplit (s : Str) : List Str := lisSplitF s.length s

/-- util.rs value extraction: pieces of the before-colon text split on
`\s{2,}\w*\s{2,}`; second-to-last piece when more than two pieces,
otherwise the last piece, trimmed. -/
def propValue (root : Str) : Str :=
  let v := lisSplit (colonHead root)
  if 2 < v.length then trim (v.getD (v.length - 2) [])
  else trim (v.getD (v.length - 1) [])

/-- util.rs `WellProp`. -/
structure WellProp where
  unit : Str
  description : Str
  value : Str
deriving DecidableEq

/-- Processing of one section line by util.rs `property`. -/
def processLine (line : Str) : Str × WellProp :=
  let root := normalizeLine line
  (propTitle root, ⟨propUnit root, propDescription root, propValue root⟩)

/-- HashMap insert modelled on an association list: a duplicate title
overwrites the previous entry. -/
def insertProp (m : List (Str × WellProp)) (k : Str) (v : WellProp) :
    List (Str × WellProp) :=
  (m.filter fun p => !(p.1 == k)) ++ [(k, v)]

/-- util.rs `property`: the slice between the first and second occurrence
of `key`, cut at the next '~', its non-comment lines with the section
header dropped, each processed into a (title, WellProp) entry. -/
def property (raw key : Str) : Option (List (Str × WellProp)) :=
  match splitAfterFirst key raw with
  | none => none
  | some x =>
    let body := beforeFirst (str "~") (beforeFirst key x)
    let ls := (remove_comment body).drop 1
    some (ls.foldl (fun m l => insertProp m (processLine l).1 (processLine l).2) [])

/-- lib.rs `Las::well_info` (`unwrap_or_default`). -/
def well_info (raw : Str) : List (Str × WellProp) := (property raw (str "~W")).getD []

/-- lib.rs `Las::curve_params` (`unwrap_or_default`). -/
def curve_params (raw : Str) : List (Str × WellProp) := (property raw (str "~C")).getD []

/-- lib.rs `Las::log_params` (`unwrap_or_default`). -/
def log_params (raw : Str) : List (Str × WellProp) := (property raw (str "~P")).getD []

/-! Validation of the embedding against the unit tests of util.rs. -/

example :
    processLine (str "STRT .m       1499.879000 :")
      = (str "STRT", ⟨str "m", str "", str "1499.879000"⟩) := by decide

example :
    processLine (str "NULL .        -999.250000 :")
      = (str "NULL", ⟨str "", str "", str "-999.250000"⟩) := by decide

example :
    processLine (str "COMP    .       ANY OIL COMPANY INC.             :COMPANY")
      = (str "COMP", ⟨str "", str "COMPANY", str "ANY OIL COMPANY INC."⟩) := by
  decide

example :
    processLine (str "DEPT .m                   : DEPTH")
      = (str "DEPT", ⟨str "m", str "DEPTH", str ""⟩) := by decide

example :
    metadata (str "~VERSION INFORMATION\n VERS.    2.0 :   CWLS LOG\n WRAP.  NO  : ONE LINE\n~WELL")
      = .ok (some (.fin 2 0)) false := by decide

/-! Claims C3, C4, C5 about the property extractor. -/

theorem dosSplitn2_ne_nil (s : Str) : dosSplitn2 s ≠ [] := by
  unfold dosSplitn2
  rcases dosBreak s with ⟨a, _ | r⟩ <;> simp

theorem mem_foldl_insertProp (p : Str × WellProp) :
    ∀ (ls : List Str) (acc : List (Str × WellProp)),
      p ∈ ls.foldl (fun m l => insertProp m (processLine l).1 (processLine l).2) acc →
      p ∈ acc ∨ ∃ l, l ∈ ls ∧ p = processLine l := by
  intro ls
  induction ls with
  | nil => exact fun acc h => Or.inl h
  | cons a as ih =>
    intro acc h
    rw [List.foldl_cons] at h
    rcases ih _ h with h1 | ⟨l, hl, hp⟩
    · unfold insertProp at h1
      rcases List.mem_append.mp h1 with h2 | h2
      · exact Or.inl (List.mem_of_mem_filter h2)
      · right
        refine ⟨a, List.mem_cons_self a as, ?_⟩
        have h3 : p = ((processLine a).1, (processLine a).2) := List.mem_singleton.mp h2
        simpa using h3
    · exact Or.inr ⟨l, List.mem_cons_of_mem a hl, hp⟩

/-- Claim C3 as stated: every key of the mappings returned by well_info,
curve_params and log_params is non-empty. -/
def ClaimC3 : Prop := ∀ raw : Str,
  (∀ p ∈ well_info raw, p.1 ≠ str "")
  ∧ (∀ p ∈ curve_params raw, p.1 ≠ str "")
  ∧ (∀ p ∈ log_params raw, p.1 ≠ str "")

/-- Claim C3: refuted.  A property line beginning with a dot (here
".m 1 :") yields the empty title: the first piece of the dot-or-whitespace
split is empty and the "UNKNOWN" fallback never fires, so the mapping
contains the empty string as a key. -/
theorem C3_counterexample : ¬ ClaimC3 := fun h =>
  ((h (str "~Well x\n.m 1 :")).1 (str "", ⟨str "", str "", str ".m 1"⟩)
    (by decide)) rfl

/-- Claim C3 (amended): every key of a property mapping is the trimmed
first piece of the dot-or-whitespace split of its normalized line — the
split always yields a first piece, so the "UNKNOWN" fallback of the
source is unreachable — and that trimmed piece may be empty (see the
counterexample). -/
theorem C3_theorem (raw key : Str) (m : List (Str × WellProp))
    (hm : property raw key = some m) (p : Str × WellProp) (hp : p ∈ m) :
    ∃ l piece, p = processLine l
      ∧ (dosSplitn2 (normalizeLine l)).head? = some piece
      ∧ p.1 = trim piece := by
  have hl : ∃ l, p = processLine l := by
    unfold property at hm
    cases hk : splitAfterFirst key raw with
    | none =>
      rw [hk] at hm
      exact Option.noConfusion hm
    | some x =>
      rw [hk] at hm
      have hm2 : _ = m := Option.some.inj hm
      rw [← hm2] at hp
      rcases mem_foldl_insertProp p _ [] hp with h0 | ⟨l, _, hpe⟩
      · exact absurd h0 (List.not_mem_nil p)
      · exact ⟨l, hpe⟩
  obtain ⟨l, hpe⟩ := hl
  rcases hd : dosSplitn2 (normalizeLine l) with _ | ⟨x, xs⟩
  · exact absurd hd (dosSplitn2_ne_nil _)
  · refine ⟨l, x, hpe, by rw [hd]; rfl, ?_⟩
    rw [hpe]
    show propTitle (normalizeLine l) = trim x
    unfold propTitle
    rw [hd]
    rfl

/-- Claim C3 amended, witnessed on a concrete document. -/
theorem C3_witness :
    ∃ l piece,
      ((str "A", (⟨str "", str "", str "1"⟩ : WellProp)) : Str × WellProp)
          = processLine l
      ∧ (dosSplitn2 (normalizeLine l)).head? = some piece
      ∧ str "A" = trim piece :=
  C3_theorem (str "~W x\nA . 1 :") (str "~W")
    [(str "A", ⟨str "", str "", str "1"⟩)] (by decide)
    (str "A", ⟨str "", str "", str "1"⟩) (by decide)

/-- Keep only the text after the leading runs of digits-and-whitespace
(the claim-side reading of "leading pure-digit-and-space runs are
stripped"). -/
def stripLeadingAux : Bool → Str → Str
  | _, [] => []
  | absorb, c :: rest =>
    if c.isDigit then stripLeadingAux true rest
    else if absorb && isWS c then stripLeadingAux true rest
    else c :: rest

def stripLeadingDigitRuns (s : Str) : Str := stripLeadingAux false s

/-- Claim C4 as stated: the stored description is the entire text after
the line's first colon, trimmed, with only the leading digit-and-space
runs stripped (interior digit runs and text after a second colon
preserved). -/
def ClaimC4 : Prop := ∀ line : Str,
  (processLine line).2.description
    = stripLeadingDigitRuns
        (trim ((splitAfterFirst (str ":") (normalizeLine line)).getD []))

/-- Claim C4: refuted.  For the line "A . 1 :B 2 C:D" the source stores
"B C": it cuts the description at the second colon (dropping ":D") and
`replace_all` removes the interior digit run "2 ", while the claim
demands "B 2 C:D". -/
theorem C4_counterexample : ¬ ClaimC4 := fun h =>
  absurd (h (str "A . 1 :B 2 C:D")) (by decide)

theorem splitChar_head (c : Char) (s : Str) :
    (splitChar c s).head? = some (beforeFirst [c] s) := by
  induction s with
  | nil => rfl
  | cons a rest ih =>
    by_cases h : a = c
    · subst h
      simp [splitChar, beforeFirst, List.isPrefixOf]
    · rcases hsp : splitChar c rest with _ | ⟨p, ps⟩
      · rw [hsp] at ih
        exact absurd ih (by simp)
      · rw [hsp] at ih
        have hp : p = beforeFirst [c] rest := by simpa using ih
        simp [splitChar, beforeFirst, List.isPrefixOf, h, Ne.symm h, hsp, hp]

theorem splitChar_get1 (c : Char) (s : Str) :
    (splitChar c s).get? 1 = (splitAfterFirst [c] s).map (beforeFirst [c]) := by
  induction s with
  | nil => rfl
  | cons a rest ih =>
    by_cases h : a = c
    · subst h
      have h0 : splitChar a (a :: rest) = [] :: splitChar a rest := by
        simp [splitChar]
      rw [h0]
      rcases hsp : splitChar a rest with _ | ⟨p, ps⟩
      · have hh := splitChar_head a rest
        rw [hsp] at hh
        exact absurd hh (by simp)
      · have hh := splitChar_head a rest
        rw [hsp] at hh
        have hp : p = beforeFirst [a] rest := by simpa using hh
        simp [splitAfterFirst, List.isPrefixOf, hp]
    · rcases hsp : splitChar c rest with _ | ⟨p, ps⟩
      · have := splitChar_head c rest
        rw [hsp] at this
        exact absurd this (by simp)
      · rw [hsp] at ih
        have h1 : splitChar c (a :: rest) = (a :: p) :: ps := by
          simp [splitChar, h, Ne.symm h, hsp]
        have h2 : splitAfterFirst [c] (a :: rest) = splitAfterFirst [c] rest := by
          simp [splitAfterFirst, List.isPrefixOf, h, Ne.symm h]
        rw [h1, h2, ← ih]
        rfl

/-- Claim C4 (amended): the stored description is the text strictly
between the line's first and second colons (to the end when there is no
second colon), trimmed, with every digit run together with its following
whitespace removed, anywhere in the text. -/
theorem C4_theorem (line : Str) :
    (processLine line).2.description
      = stripDigitRuns
          (trim (((splitAfterFirst (str ":") (normalizeLine line)).map
            (beforeFirst (str ":"))).getD [])) := by
  have hc : (str ":") = [':'] := rfl
  show propDescription (normalizeLine line) = _
  unfold propDescription colonSecond
  rw [hc, splitChar_get1]

/-- Claim C5: the stored value as computed from the text before the first
colon of the normalized line, split on the delimiter pattern
`\s{2,}\w*\s{2,}` (the spec's "runs of 2+ whitespace characters flanked
on both sides", i.e. optionally enclosing a word); when the split yields
more than two pieces the value is the second-to-last piece trimmed,
otherwise the last piece trimmed. -/
def claimValue (root : Str) : Str :=
  let v := lisSplit (beforeFirst (str ":") root)
  if 2 < v.length then trim (v.getD (v.length - 2) [])
  else trim (v.getD (v.length - 1) [])

/-- Claim C5: confirmed.  The stored value equals the claim's description
of it on every line. -/
theorem C5_theorem (line : Str) :
    (processLine line).2.value = claimValue (normalizeLine line) := by
  have hc : (str ":") = [':'] := rfl
  show propValue (normalizeLine line) = _
  unfold propValue claimValue colonHead
  rw [hc, splitChar_head]
  rfl

/-! Headers, data matrix and column extraction (lib.rs). -/

/-- Whether a whitespace run followed by a dot starts here (the shape of a
`\s+[.]` match; a shorter run cannot match since the character after the
full run is the same). -/
def wsThenDot (s : Str) : Bool :=
  match s.dropWhile (fun c => isWS c) with
  | '.' :: _ => true
  | _ => false

/-- One splitting step of the regex `\s+[.]`: the separator is a maximal
whitespace run together with the following dot. -/
def sadBreak : Str → Str × Option Str
  | [] => ([], none)
  | c :: rest =>
    if isWS c && wsThenDot (c :: rest) then
      ([], some (((c :: rest).dropWhile (fun d => isWS d)).drop 1))
    else
      let r := sadBreak rest
      (c :: r.1, r.2)

/-- util.rs `SPACES_AND_DOT.splitn(x, 2)` as a list of pieces. -/
def sadSplitn2 (s : Str) : List Str :=
  match sadBreak s with
  | (a, none) => [a]
  | (a, some r) => [a, r]

/-- lib.rs `Las::headers`: the slice after the first "~C", cut at the next
'~', non-comment lines with the header dropped, each line's trimmed text
before the first whitespace-run-and-dot. -/
def headers (raw : Str) : List Str :=
  let sec := beforeFirst (str "~") ((splitAfterFirst (str "~C") raw).getD [])
  ((remove_comment sec).drop 1).filterMap fun x => (sadSplitn2 (trim x)).head?

/-- Rust regex `\s+` split: pieces between maximal whitespace runs (an
empty input yields one empty piece). -/
def spacesSplit : Str → List Str
  | [] => [[]]
  | c :: rest =>
    if isWS c then
      match rest with
      | [] => [[], []]
      | d :: _ =>
        if isWS d then spacesSplit rest
        else [] :: spacesSplit rest
    else
      match spacesSplit rest with
      | [] => [[c]]
      | p :: ps => (c :: p) :: ps

/-- lib.rs data tokenization of one line: trim, split on whitespace runs,
parse each token with the 0.0 fallback. -/
def lineTokens (x : Str) : List FVal :=
  (spacesSplit (trim x)).map fun v => (parseF64 (trim v)).getD (.fin 0 0)

/-- lib.rs `Las::data`, flattening step: everything after the first "~A",
lines with the first raw line dropped, all tokens in order. -/
def flatTokens (raw : Str) : List FVal :=
  ((linesOf ((splitAfterFirst (str "~A") raw).getD [])).drop 1).flatMap lineTokens

/-- Rust `slice::chunks` driven by fuel (each step consumes at least one
element when the chunk size is positive, so length-many steps suffice). -/
def chunksOfF {α : Type} : ℕ → ℕ → List α → List (List α)
  | _, _, [] => []
  | 0, _, l => [l]
  | f + 1, n, l => l.take n :: chunksOfF f n (l.drop n)

/-- Rust `slice::chunks` for a positive chunk size. -/
def chunksOf {α : Type} (n : ℕ) (l : List α) : List (List α) :=
  chunksOfF l.length n l

/-- lib.rs `Las::data`: none models the `chunks(0)` panic when the curve
section yields no headers. -/
def data (raw : Str) : Option (List (List FVal)) :=
  if (headers raw).length = 0 then none
  else some (chunksOf (headers raw).length (flatTokens raw))

/-- lib.rs `Las::column_count`. -/
def column_count (raw : Str) : ℕ := (headers raw).length

/-- lib.rs `Las::row_count` (propagating the data panic). -/
def row_count (raw : Str) : Option ℕ := (data raw).map List.length

/-- Rust `Iterator::position`. -/
def position (p : Str → Bool) : List Str → Option ℕ
  | [] => none
  | a :: l => if p a then some 0 else (position p l).map (fun i => i + 1)

/-- Element at index `i` of every row; none models the row-indexing panic
of `x[index]` when some row is too short. -/
def allGet (i : ℕ) : List (List FVal) → Option (List FVal)
  | [] => some []
  | r :: rs =>
    match r.get? i, allGet i rs with
    | some v, some vs => some (v :: vs)
    | _, _ => none

/-- The three panics reachable from `Las::column`: the
`expect("msg")` on a missing header (the "field not found" condition),
the `chunks(0)` panic inside `data`, and the row-indexing panic. -/
inductive ColErr where
  | fieldNotFound
  | chunkPanic
  | rowIndexPanic
deriving DecidableEq

/-- lib.rs `Las::column`. -/
def column (raw col : Str) : Except ColErr (List FVal) :=
  match position (fun x => x == col) (headers raw) with
  | none => .error .fieldNotFound
  | some i =>
    match data raw with
    | none => .error .chunkPanic
    | some rows =>
      match allGet i rows with
      | none => .error .rowIndexPanic
      | some vs => .ok vs

/-! Validation of the data side against the doctests of lib.rs. -/

example :
    headers (str "~Curve\nDEPT .m   : DEPTH\nPerm .m  :\nGamma .m  :\n~Ascii\n1 2 3")
      = [str "DEPT", str "Perm", str "Gamma"] := by decide

example :
    data (str "~Curve\nDEPT .m :\nPerm .m :\n~A\n1670.0 123.45\n1669.9 -999.25")
      = some [[.fin 1670 0, .fin 12345 2], [.fin 16699 1, .fin (-99925) 2]] := by
  decide

example :
    column (str "~Curve\nDEPT .m :\nPerm .m :\n~A\n1670.0 123.45\n1669.9 -999.25")
      (str "DEPT") = .ok [.fin 1670 0, .fin 16699 1] := rfl

/-! Claims C6, C7, C9, C10 about the data matrix. -/

theorem chunksOfF_decomp {α : Type} :
    ∀ (f n : ℕ) (l : List α), l.length ≤ f → 1 ≤ n →
      chunksOfF f n l = []
      ∨ ∃ full lst, chunksOfF f n l = full ++ [lst]
          ∧ (∀ r ∈ full, r.length = n) ∧ 0 < lst.length ∧ lst.length ≤ n := by
  intro f
  induction f with
  | zero =>
    intro n l hl _
    left
    have h0 : l = [] := List.length_eq_zero.mp (Nat.le_zero.mp hl)
    subst h0
    rfl
  | succ f ih =>
    intro n l hl hn
    cases l with
    | nil => left; rfl
    | cons a t =>
      right
      have hdl : ((a :: t).drop n).length ≤ f := by
        rw [List.length_drop]
        simp only [List.length_cons] at hl ⊢
        omega
      rcases ih n _ hdl hn with hnil | ⟨full, lst, heq, hfull, hpos, hle⟩
      · refine ⟨[], (a :: t).take n, ?_, by simp, ?_, ?_⟩
        · show (a :: t).take n :: chunksOfF f n ((a :: t).drop n)
            = [] ++ [(a :: t).take n]
          rw [hnil]
          rfl
        · rw [List.length_take]
          have h1 : 0 < (a :: t).length := by simp
          omega
        · rw [List.length_take]
          exact min_le_left _ _
      · have hlen : n < (a :: t).length := by
          by_contra hge
          push_neg at hge
          have hde : (a :: t).drop n = [] := List.drop_eq_nil_of_le hge
          rw [hde] at heq
          have h2 : chunksOfF f n ([] : List α) = [] := by cases f <;> rfl
          rw [h2] at heq
          exact absurd heq.symm (by simp)
        refine ⟨(a :: t).take n :: full, lst, ?_, ?_, hpos, hle⟩
        · show (a :: t).take n :: chunksOfF f n ((a :: t).drop n)
            = ((a :: t).take n :: full) ++ [lst]
          rw [heq]
          rfl
        · intro r hr
          rcases List.mem_cons.mp hr with h | h
          · subst h
            rw [List.length_take]
            exact min_eq_left (le_of_lt hlen)
          · exact hfull r h

theorem chunksOfF_full_of_dvd {α : Type} :
    ∀ (f n : ℕ) (l : List α), l.length ≤ f → 1 ≤ n → n ∣ l.length →
      ∀ r ∈ chunksOfF f n l, r.length = n := by
  intro f
  induction f with
  | zero =>
    intro n l hl _ _ r hr
    have h0 : l = [] := List.length_eq_zero.mp (Nat.le_zero.mp hl)
    subst h0
    simp [chunksOfF] at hr
  | succ f ih =>
    intro n l hl hn hdvd r hr
    cases l with
    | nil => simp [chunksOfF] at hr
    | cons a t =>
      have hge : n ≤ (a :: t).length := Nat.le_of_dvd (by simp) hdvd
      have hdl : ((a :: t).drop n).length ≤ f := by
        rw [List.length_drop]
        simp only [List.length_cons] at hl ⊢
        omega
      have hdvd2 : n ∣ ((a :: t).drop n).length := by
        rw [List.length_drop]
        exact Nat.dvd_sub' hdvd (dvd_refl n)
      have hstep : chunksOfF (f + 1) n (a :: t)
          = (a :: t).take n :: chunksOfF f n ((a :: t).drop n) := rfl
      rw [hstep] at hr
      rcases List.mem_cons.mp hr with h | h
      · subst h
        rw [List.length_take]
        exact min_eq_left hge
      · exact ih n _ hdl hn hdvd2 r h

/-- Claim C6: headers().len() equals column_count(); every data row except
possibly the last has length exactly column_count(); the final row is
nonempty and at most column_count() long; and when the curve count divides
the total token count every row (the final one included) is full. -/
theorem C6_theorem (raw : Str) (rows : List (List FVal))
    (h : data raw = some rows) :
    (headers raw).length = column_count raw
    ∧ (rows = [] ∨ ∃ full lst, rows = full ++ [lst]
        ∧ (∀ r ∈ full, r.length = column_count raw)
        ∧ 0 < lst.length ∧ lst.length ≤ column_count raw)
    ∧ (column_count raw ∣ (flatTokens raw).length →
        ∀ r ∈ rows, r.length = column_count raw) := by
  unfold data at h
  by_cases hz : (headers raw).length = 0
  · rw [if_pos hz] at h
    exact Option.noConfusion h
  · rw [if_neg hz] at h
    have hrows : rows = chunksOfF (flatTokens raw).length
        (headers raw).length (flatTokens raw) :=
      (Option.some.inj h).symm
    have hn : 1 ≤ (headers raw).length := Nat.one_le_iff_ne_zero.mpr hz
    refine ⟨rfl, ?_, ?_⟩
    · rw [hrows]
      exact chunksOfF_decomp _ _ _ (le_refl _) hn
    · intro hdvd r hr
      rw [hrows] at hr
      exact chunksOfF_full_of_dvd _ _ _ (le_refl _) hn hdvd r hr

/-- Claim C6, witnessed on a document whose three tokens split into one
full row of two and a short final row. -/
theorem C6_witness :
    data (str "~C\nCURVES\nA .m :\nB .m :\n~A depth\n1 2 3")
        = some [[FVal.fin 1 0, FVal.fin 2 0], [FVal.fin 3 0]]
    ∧ (([[FVal.fin 1 0, FVal.fin 2 0], [FVal.fin 3 0]] : List (List FVal)) = []
        ∨ ∃ full lst,
            ([[FVal.fin 1 0, FVal.fin 2 0], [FVal.fin 3 0]] : List (List FVal))
              = full ++ [lst]
            ∧ (∀ r ∈ full,
                r.length = column_count (str "~C\nCURVES\nA .m :\nB .m :\n~A depth\n1 2 3"))
            ∧ 0 < lst.length
            ∧ lst.length ≤ column_count (str "~C\nCURVES\nA .m :\nB .m :\n~A depth\n1 2 3")) :=
  ⟨by decide, (C6_theorem _ _ (by decide)).2.1⟩

/-- The data lines as the claim describes them: everything after the "~A"
marker, with the first raw line dropped. -/
def claimDataLines (raw : Str) : List Str :=
  (linesOf ((splitAfterFirst (str "~A") raw).getD [])).drop 1

/-- The claim-side flattening: token lists of all lines concatenated in
order. -/
def claimTokensOfLines : List Str → List FVal
  | [] => []
  | l :: ls => lineTokens l ++ claimTokensOfLines ls

theorem flatTokens_eq_claim (raw : Str) :
    flatTokens raw = claimTokensOfLines (claimDataLines raw) := by
  unfold flatTokens claimDataLines
  generalize (linesOf ((splitAfterFirst (str "~A") raw).getD [])).drop 1 = ls
  induction ls with
  | nil => rfl
  | cons l ls ih => simp [claimTokensOfLines, ih]

/-- Claim C7: for a document with a data section (and a nonzero curve
count, without which `data` panics — see C9), `data` is exactly the
chunking of the claim's token pipeline: drop the first raw line after the
marker, trim and whitespace-split every remaining line, parse each token
with the 0.0 fallback (total, so no malformed token aborts), flatten in
order, then chunk. -/
theorem C7_theorem (raw : Str) (_hA : splitAfterFirst (str "~A") raw ≠ none)
    (hH : headers raw ≠ []) :
    data raw = some (chunksOf (headers raw).length
      (claimTokensOfLines (claimDataLines raw))) := by
  rw [← flatTokens_eq_claim]
  unfold data
  rw [if_neg (fun hc => hH (List.length_eq_zero.mp hc))]

/-- Claim C7, witnessed on a document with a malformed token ("x"). -/
theorem C7_witness :
    splitAfterFirst (str "~A") (str "~C\nH\nA .m :\n~A\nx 2") ≠ none
    ∧ headers (str "~C\nH\nA .m :\n~A\nx 2") ≠ []
    ∧ data (str "~C\nH\nA .m :\n~A\nx 2")
        = some (chunksOf (headers (str "~C\nH\nA .m :\n~A\nx 2")).length
            (claimTokensOfLines (claimDataLines (str "~C\nH\nA .m :\n~A\nx 2")))) :=
  ⟨by decide, by decide, C7_theorem _ (by decide) (by decide)⟩

theorem headers_of_no_curve (raw : Str)
    (h : splitAfterFirst (str "~C") raw = none) : headers raw = [] := by
  unfold headers
  rw [h]
  rfl

/-- Claim C9: when the curve section is absent or yields zero headers,
`data` (and so `row_count`) hits the `chunks(0)` panic — modelled as
`none` — even when the data section is absent too; it never returns an
empty matrix in that case. -/
theorem C9_theorem (raw : Str)
    (h : splitAfterFirst (str "~C") raw = none ∨ headers raw = []) :
    data raw = none ∧ row_count raw = none := by
  have hh : headers raw = [] := by
    rcases h with h | h
    · exact headers_of_no_curve raw h
    · exact h
  have hd : data raw = none := by
    unfold data
    rw [hh]
    rfl
  refine ⟨hd, ?_⟩
  unfold row_count
  rw [hd]
  rfl

/-- Claim C9, witnessed on a document with neither a curve nor a data
section. -/
theorem C9_witness :
    (splitAfterFirst (str "~C") (str "no markers here") = none
      ∨ headers (str "no markers here") = [])
    ∧ data (str "no markers here") = none
    ∧ row_count (str "no markers here") = none :=
  ⟨Or.inl (by decide), (C9_theorem _ (Or.inl (by decide))).1,
    (C9_theorem _ (Or.inl (by decide))).2⟩

theorem claimTokens_append (xs ys : List Str) :
    claimTokensOfLines (xs ++ ys)
      = claimTokensOfLines xs ++ claimTokensOfLines ys := by
  induction xs with
  | nil => rfl
  | cons x xs ih => simp [claimTokensOfLines, ih]

/-- Claim C10: a blank or whitespace-only line among the data lines (after
the dropped header line) contributes exactly one 0.0 entry to the
flattened token sequence: the trimmed empty line splits into a single
empty token, which fails to parse and falls back to 0.0. -/
theorem C10_theorem (raw : Str) (pre post : List Str) (s : Str)
    (h1 : claimDataLines raw = pre ++ s :: post) (h2 : trim s = []) :
    flatTokens raw
      = claimTokensOfLines pre ++ FVal.fin 0 0 :: claimTokensOfLines post := by
  have hb : lineTokens s = [FVal.fin 0 0] := by
    unfold lineTokens
    rw [h2]
    rfl
  rw [flatTokens_eq_claim, h1, claimTokens_append]
  simp [claimTokensOfLines, hb]

/-- Claim C10, witnessed on a data section with an interior blank line:
the blank line's 0.0 lands between the surrounding values. -/
theorem C10_witness :
    trim (str "  ") = []
    ∧ flatTokens (str "~A\n1\n  \n2")
        = claimTokensOfLines [str "1"]
            ++ FVal.fin 0 0 :: claimTokensOfLines [str "2"] :=
  ⟨by decide, C10_theorem _ [str "1"] [str "2"] (str "  ") (by decide) (by decide)⟩

/-! Claim C8 about column extraction. -/

theorem position_eq_none (a : Str) :
    ∀ l : List Str, a ∉ l → position (fun x => x == a) l = none := by
  intro l
  induction l with
  | nil => intro _; rfl
  | cons b bs ih =>
    intro h
    have hne : (b == a) = false := by
      apply beq_eq_false_iff_ne.mpr
      intro hcon
      cases hcon
      exact h (List.mem_cons_self _ _)
    unfold position
    rw [hne, ih (fun hm => h (List.mem_cons_of_mem b hm))]
    rfl

theorem allGet_eq_map (j : ℕ) : ∀ rows : List (List FVal),
    (∀ r ∈ rows, j < r.length) →
    allGet j rows = some (rows.map (fun r => (r.get? j).getD (.fin 0 0))) := by
  intro rows
  induction rows with
  | nil => intro _; rfl
  | cons r rs ih =>
    intro h
    have hr : j < r.length := h r (List.mem_cons_self r rs)
    have hget : r.get? j = some ((r.get? j).getD (.fin 0 0)) := by
      cases hg : r.get? j with
      | none =>
        have := List.get?_eq_none.mp hg
        omega
      | some v => rfl
    unfold allGet
    rw [hget, ih (fun x hx => h x (List.mem_cons_of_mem r hx))]
    rfl

theorem allGet_eq_none (j : ℕ) : ∀ rows : List (List FVal),
    (∃ r ∈ rows, r.length ≤ j) → allGet j rows = none := by
  intro rows
  induction rows with
  | nil =>
    rintro ⟨r, hr, _⟩
    exact absurd hr (List.not_mem_nil r)
  | cons r rs ih =>
    rintro ⟨x, hx, hxl⟩
    rcases List.mem_cons.mp hx with h | h
    · subst h
      have hg : x.get? j = none := List.get?_eq_none.mpr hxl
      unfold allGet
      rw [hg]
    · unfold allGet
      rw [ih ⟨x, h, hxl⟩]
      cases r.get? j <;> rfl

/-- Claim C8 as stated: column(name) fails (with the "field not found"
condition) exactly when the name is absent from headers(); when the name
occurs at position j, column returns the j-th element of every data row
in order. -/
def ClaimC8 : Prop := ∀ raw col : Str,
  (col ∉ headers raw → column raw col = .error .fieldNotFound)
  ∧ (∀ j, position (fun x => x == col) (headers raw) = some j →
      ∃ rows, data raw = some rows
        ∧ column raw col = .ok (rows.map (fun r => (r.get? j).getD (.fin 0 0))))

/-- Claim C8: refuted.  With headers [A, B] and a truncated final row
(three tokens for two curves), column("B") does not return the second
element of every row — the final row has none — but panics with an
index-out-of-bounds error. -/
theorem C8_counterexample : ¬ ClaimC8 := by
  intro h
  obtain ⟨rows, h1, h2⟩ :=
    (h (str "~C\nH\nA .m :\nB .m :\n~A\n1 2 3") (str "B")).2 1 (by decide)
  have hd : data (str "~C\nH\nA .m :\nB .m :\n~A\n1 2 3")
      = some [[FVal.fin 1 0, FVal.fin 2 0], [FVal.fin 3 0]] := by decide
  rw [hd] at h1
  cases h1
  have hcol : column (str "~C\nH\nA .m :\nB .m :\n~A\n1 2 3") (str "B")
      = .error .rowIndexPanic := rfl
  rw [hcol] at h2
  exact Except.noConfusion h2

/-- Claim C8 (amended): column(name) fails with the "field not found"
condition when the name is absent from headers(); when the name occurs at
position j and every data row is longer than j, it returns the j-th
element of each row in order; but when some (truncated final) row has
length at most j, it panics with an index-out-of-bounds error instead of
returning. -/
theorem column_eq_of_position (raw col : Str) (j : ℕ)
    (hj : position (fun x => x == col) (headers raw) = some j) :
    column raw col
      = match data raw with
        | none => Except.error ColErr.chunkPanic
        | some rows =>
          match allGet j rows with
          | none => Except.error ColErr.rowIndexPanic
          | some vs => Except.ok vs := by
  unfold column
  rw [hj]

theorem column_eq_of_rows (raw col : Str) (j : ℕ) (rows : List (List FVal))
    (hj : position (fun x => x == col) (headers raw) = some j)
    (hdata : data raw = some rows) :
    column raw col
      = match allGet j rows with
        | none => Except.error ColErr.rowIndexPanic
        | some vs => Except.ok vs := by
  rw [column_eq_of_position raw col j hj, hdata]

theorem C8_theorem (raw col : Str) :
    (col ∉ headers raw → column raw col = .error .fieldNotFound)
    ∧ (∀ j rows, position (fun x => x == col) (headers raw) = some j →
        data raw = some rows → (∀ r ∈ rows, j < r.length) →
        column raw col = .ok (rows.map (fun r => (r.get? j).getD (.fin 0 0))))
    ∧ (∀ j rows, position (fun x => x == col) (headers raw) = some j →
        data raw = some rows → (∃ r ∈ rows, r.length ≤ j) →
        column raw col = .error .rowIndexPanic) := by
  refine ⟨?_, ?_, ?_⟩
  · intro h
    unfold column
    rw [position_eq_none col (headers raw) h]
  · intro j rows hj hdata hall
    rw [column_eq_of_rows raw col j rows hj hdata, allGet_eq_map j rows hall]
  · intro j rows hj hdata hshort
    rw [column_eq_of_rows raw col j rows hj hdata, allGet_eq_none j rows hshort]

/-- Claim C8 amended, witnessed: with a single curve DEPT at position 0
and two full rows, column("DEPT") returns the first element of each row. -/
theorem C8_witness :
    position (fun x => x == str "DEPT") (headers (str "~C\nH\nDEPT .m :\n~A\n9\n8"))
        = some 0
    ∧ column (str "~C\nH\nDEPT .m :\n~A\n9\n8") (str "DEPT")
        = .ok [FVal.fin 9 0, FVal.fin 8 0] :=
  ⟨by decide,
    (C8_theorem (str "~C\nH\nDEPT .m :\n~A\n9\n8") (str "DEPT")).2.1 0
      [[FVal.fin 9 0], [FVal.fin 8 0]] (by decide) (by decide) (by decide)⟩

end Lasrs
